import Mathlib

/-!
Verification of the lumi import pipeline and job orchestration code.

Each definition is a shallow embedding of a function from the repository
(`functions/import_pipeline/image_utils.py`, `latex_utils.py`,
`import_pipeline.py`, `functions/answers/answers.py`,
`functions/backend/db.py`, `functions/backend/worker.py`).
Strings are modelled as `String`/`List Char`, Python floats carrying exact
decimal constants as `ℚ`, timestamps as `ℤ`, and fallible operations as
`Except`/`Option`.  External effects (filesystem walks, image decoding,
uploads) are passed in as explicit data or function parameters.
-/

namespace Lumi

/-- Replaces every backslash with a forward slash: the path-separator
normalization `full_path.replace('\\', '/')` performed at the top of
`check_target_in_path` in `image_utils.py`. -/
def normalizeSeps (s : List Char) : List Char :=
  s.map fun c => if c = '\\' then '/' else c

/-- The part of a path after the final separator, `os.path.basename` as used
on the already separator-normalized target in `check_target_in_path`. -/
def basenameChars (s : List Char) : List Char :=
  (s.reverse.takeWhile fun c => c ≠ '/').reverse

/-- Whether a candidate tail is accepted by the optional-extension group of
the regex in `check_target_in_path`, namely one dot followed by one or more
characters that are neither a dot nor a separator (the class excludes only
those two, so it admits newlines), or nothing. -/
def isExtTail : List Char → Bool
  | [] => true
  | c :: rest =>
    c == '.' && !(rest == []) && rest.all fun d => d != '/' && d != '.'

/-- Python's `$` outside multiline mode: it matches at the end of the string
and also just before a newline that ends the string, so the text remaining
after the pattern must be empty or one final newline. -/
def dollarEnd (tail : List Char) : Bool :=
  tail == [] || tail == ['\n']

/-- The acceptor for the text remaining after the matched target: a target
carrying an extension is followed directly by `$`, and a target without one
may first carry the optional single extension — where a lone final newline is
`$` matching before it with the extension group skipped. -/
def tailAccepted (allowExt : Bool) (tail : List Char) : Bool :=
  match allowExt with
  | true => isExtTail tail || tail == ['\n']
  | false => dollarEnd tail

/-- One anchored match attempt of the regex of `check_target_in_path` at the
current position: the literal target must be a prefix of the remaining text
and the rest of the text must satisfy the tail acceptor. -/
def matchHere (t : List Char) (tailOk : List Char → Bool) (p : List Char) :
    Bool :=
  t.isPrefixOf p && tailOk (p.drop t.length)

/-- The search performed by `re.search` for the pattern of
`check_target_in_path`: the leading group matches either the start of the
string or a literal separator, so a match attempt is anchored at the start
and after every separator character. -/
def searchTarget (t : List Char) (tailOk : List Char → Bool) :
    Bool → List Char → Bool
  | atBoundary, [] => atBoundary && matchHere t tailOk []
  | atBoundary, c :: rest =>
    (atBoundary && matchHere t tailOk (c :: rest)) ||
      searchTarget t tailOk (c == '/') rest

/-- Embedding of `check_target_in_path` (image_utils.py): normalize the
separators of both arguments, then search for the target anchored at the
string start or a separator, allowing an optional single trailing extension
exactly when the target's basename contains no dot; the closing `$` carries
Python's semantics of also matching before one final newline. -/
def check_target_in_path (full_path target : String) : Bool :=
  let p := normalizeSeps full_path.data
  let t := normalizeSeps target.data
  if (basenameChars t).contains '.' then
    searchTarget t (tailAccepted false) true p
  else
    searchTarget t (tailAccepted true) true p

/-- A single trailing extension in the sense of the specification: a dot
followed by at least one character, none of which is a dot or a separator. -/
def IsSingleExt (ext : List Char) : Prop :=
  ∃ e, e ≠ [] ∧ (∀ c ∈ e, c ≠ '/' ∧ c ≠ '.') ∧ ext = '.' :: e

/-- The suffix-match relation as the specification words it: after separator
normalization, the target appears at the end of the candidate path preceded by
the start of the string or a separator; when the target's basename has an
extension the candidate must end in the target exactly, and otherwise the
candidate may additionally carry a single trailing extension. -/
def SpecSuffixMatch (full_path target : String) : Prop :=
  let p := normalizeSeps full_path.data
  let t := normalizeSeps target.data
  if '.' ∈ basenameChars t then
    p = t ∨ ∃ pre, p = pre ++ '/' :: t
  else
    ∃ ext, (ext = [] ∨ IsSingleExt ext) ∧
      (p = t ++ ext ∨ ∃ pre, p = pre ++ '/' :: (t ++ ext))

/-- The spec's relation adjusted for Python's `$`: the matched occurrence may
additionally be followed by one final newline. -/
def SpecSuffixMatchPy (full_path target : String) : Prop :=
  let p := normalizeSeps full_path.data
  let t := normalizeSeps target.data
  if '.' ∈ basenameChars t then
    ∃ nl, (nl = [] ∨ nl = ['\n']) ∧
      (p = t ++ nl ∨ ∃ pre, p = pre ++ '/' :: (t ++ nl))
  else
    ∃ ext nl, (ext = [] ∨ IsSingleExt ext) ∧ (nl = [] ∨ nl = ['\n']) ∧
      (p = t ++ (ext ++ nl) ∨ ∃ pre, p = pre ++ '/' :: (t ++ (ext ++ nl)))

/-- Executable mirror of the spec's strict relation, used only to evaluate it
on concrete inputs: the same search but with `$` as the true end of the
string. -/
def specStrictCheck (full_path target : String) : Bool :=
  let p := normalizeSeps full_path.data
  let t := normalizeSeps target.data
  if (basenameChars t).contains '.' then
    searchTarget t (fun tail => tail == []) true p
  else
    searchTarget t isExtTail true p

lemma isExtTail_iff (tail : List Char) :
    isExtTail tail = true ↔ tail = [] ∨ IsSingleExt tail := by
  cases tail with
  | nil => simp [isExtTail]
  | cons c rest =>
    simp only [isExtTail, Bool.and_eq_true, beq_iff_eq, Bool.not_eq_true',
      beq_eq_false_iff_ne, List.all_eq_true, bne_iff_ne, ne_eq, IsSingleExt]
    constructor
    · rintro ⟨⟨hc, hrest⟩, hall⟩
      right
      exact ⟨rest, hrest, fun d hd => ⟨(hall d hd).1, (hall d hd).2⟩, by rw [hc]⟩
    · rintro (h | ⟨e, he, hall, heq⟩)
      · exact absurd h (by simp)
      · injection heq with h1 h2
        subst h1
        subst h2
        exact ⟨⟨rfl, he⟩, fun d hd => ⟨(hall d hd).1, (hall d hd).2⟩⟩

lemma tailAccepted_false_iff (tail : List Char) :
    tailAccepted false tail = true ↔ tail = [] ∨ tail = ['\n'] := by
  simp [tailAccepted, dollarEnd]

lemma tailAccepted_true_iff (tail : List Char) :
    tailAccepted true tail = true ↔
      ∃ ext nl, (ext = [] ∨ IsSingleExt ext) ∧ (nl = [] ∨ nl = ['\n']) ∧
        tail = ext ++ nl := by
  simp only [tailAccepted, Bool.or_eq_true, beq_iff_eq, isExtTail_iff]
  constructor
  · rintro ((h | h) | h)
    · exact ⟨[], [], Or.inl rfl, Or.inl rfl, by simp [h]⟩
    · exact ⟨tail, [], Or.inr h, Or.inl rfl, by simp⟩
    · exact ⟨[], ['\n'], Or.inl rfl, Or.inr rfl, by simp [h]⟩
  · rintro ⟨ext, nl, hext, hnl, rfl⟩
    rcases hext with rfl | hx
    · rcases hnl with rfl | rfl
      · exact Or.inl (Or.inl rfl)
      · exact Or.inr rfl
    · rcases hnl with rfl | rfl
      · exact Or.inl (Or.inr (by simpa using hx))
      · obtain ⟨e, he, hch, rfl⟩ := hx
        refine Or.inl (Or.inr ⟨e ++ ['\n'], by simp, ?_, by simp⟩)
        intro c hc
        rcases List.mem_append.mp hc with h | h
        · exact hch c h
        · simp only [List.mem_singleton] at h
          subst h
          exact ⟨by decide, by decide⟩

lemma matchHere_iff (t : List Char) (tailOk : List Char → Bool)
    (p : List Char) :
    matchHere t tailOk p = true ↔
      ∃ tail, p = t ++ tail ∧ tailOk tail = true := by
  simp only [matchHere, Bool.and_eq_true]
  constructor
  · rintro ⟨hpre, htail⟩
    rw [List.isPrefixOf_iff_prefix] at hpre
    obtain ⟨tail, htl⟩ := hpre
    subst htl
    rw [List.drop_left t tail] at htail
    exact ⟨tail, rfl, htail⟩
  · rintro ⟨tail, rfl, htail⟩
    refine ⟨List.isPrefixOf_iff_prefix.mpr ⟨tail, rfl⟩, ?_⟩
    rwa [List.drop_left t tail]

lemma matchHere_eqNil_iff (t p : List Char) :
    matchHere t (fun tail => tail == []) p = true ↔ p = t := by
  rw [matchHere_iff]
  constructor
  · rintro ⟨tail, rfl, h⟩
    simp only [beq_iff_eq] at h
    simp [h]
  · rintro rfl
    exact ⟨[], by simp, by simp⟩

lemma matchHere_isExtTail_iff (t p : List Char) :
    matchHere t isExtTail p = true ↔
      ∃ ext, (ext = [] ∨ IsSingleExt ext) ∧ p = t ++ ext := by
  rw [matchHere_iff]
  constructor
  · rintro ⟨tail, rfl, h⟩
    exact ⟨tail, (isExtTail_iff tail).mp h, rfl⟩
  · rintro ⟨ext, hext, rfl⟩
    exact ⟨ext, rfl, (isExtTail_iff ext).mpr hext⟩

lemma matchHere_pyExt_iff (t p : List Char) :
    matchHere t (tailAccepted false) p = true ↔
      ∃ nl, (nl = [] ∨ nl = ['\n']) ∧ p = t ++ nl := by
  rw [matchHere_iff]
  constructor
  · rintro ⟨tail, rfl, h⟩
    exact ⟨tail, (tailAccepted_false_iff tail).mp h, rfl⟩
  · rintro ⟨nl, hnl, rfl⟩
    exact ⟨nl, rfl, (tailAccepted_false_iff nl).mpr hnl⟩

lemma matchHere_pyNoExt_iff (t p : List Char) :
    matchHere t (tailAccepted true) p = true ↔
      ∃ ext nl, (ext = [] ∨ IsSingleExt ext) ∧ (nl = [] ∨ nl = ['\n']) ∧
        p = t ++ (ext ++ nl) := by
  rw [matchHere_iff]
  constructor
  · rintro ⟨tail, rfl, h⟩
    obtain ⟨ext, nl, hext, hnl, rfl⟩ := (tailAccepted_true_iff tail).mp h
    exact ⟨ext, nl, hext, hnl, rfl⟩
  · rintro ⟨ext, nl, hext, hnl, rfl⟩
    exact ⟨ext ++ nl, rfl,
      (tailAccepted_true_iff (ext ++ nl)).mpr ⟨ext, nl, hext, hnl, rfl⟩⟩

lemma searchTarget_iff (t : List Char) (tailOk : List Char → Bool)
    (p : List Char) (atB : Bool) :
    searchTarget t tailOk atB p = true ↔
      (atB = true ∧ matchHere t tailOk p = true) ∨
        ∃ pre suf, p = pre ++ '/' :: suf ∧ matchHere t tailOk suf = true := by
  induction p generalizing atB with
  | nil =>
    simp only [searchTarget, Bool.and_eq_true]
    constructor
    · exact fun h => Or.inl h
    · rintro (h | ⟨pre, suf, habs, -⟩)
      · exact h
      · exact absurd habs (by simp)
  | cons c rest ih =>
    simp only [searchTarget, Bool.or_eq_true, Bool.and_eq_true]
    rw [ih]
    constructor
    · rintro (⟨hb, hm⟩ | (⟨hb, hm⟩ | ⟨pre, suf, hrest, hm⟩))
      · exact Or.inl ⟨hb, hm⟩
      · refine Or.inr ⟨[], rest, ?_, hm⟩
        have hc : c = '/' := by simpa using hb
        simp [hc]
      · exact Or.inr ⟨c :: pre, suf, by simp [hrest], hm⟩
    · rintro (⟨hb, hm⟩ | ⟨pre, suf, heq, hm⟩)
      · exact Or.inl ⟨hb, hm⟩
      · cases pre with
        | nil =>
          simp only [List.nil_append, List.cons.injEq] at heq
          refine Or.inr (Or.inl ⟨?_, ?_⟩)
          · simp [heq.1]
          · rw [heq.2]; exact hm
        | cons c' pre' =>
          simp only [List.cons_append, List.cons.injEq] at heq
          exact Or.inr (Or.inr ⟨pre', suf, heq.2, hm⟩)

lemma specStrictCheck_iff (full_path target : String) :
    specStrictCheck full_path target = true ↔
      SpecSuffixMatch full_path target := by
  unfold specStrictCheck SpecSuffixMatch
  by_cases hdot : '.' ∈ basenameChars (normalizeSeps target.data)
  · have hc : (basenameChars (normalizeSeps target.data)).contains '.' = true := by
      simpa [List.contains] using hdot
    simp only [hc, if_true, if_pos hdot]
    rw [searchTarget_iff]
    constructor
    · rintro (⟨-, hm⟩ | ⟨pre, suf, heq, hm⟩)
      · exact Or.inl ((matchHere_eqNil_iff _ _).mp hm)
      · refine Or.inr ⟨pre, ?_⟩
        rw [heq, (matchHere_eqNil_iff _ _).mp hm]
    · rintro (h | ⟨pre, h⟩)
      · exact Or.inl ⟨rfl, (matchHere_eqNil_iff _ _).mpr h⟩
      · exact Or.inr ⟨pre, normalizeSeps target.data, h,
          (matchHere_eqNil_iff _ _).mpr rfl⟩
  · have hc : (basenameChars (normalizeSeps target.data)).contains '.' = false := by
      simpa [List.contains] using hdot
    simp only [hc, Bool.false_eq_true, if_false, if_neg hdot]
    rw [searchTarget_iff]
    constructor
    · rintro (⟨-, hm⟩ | ⟨pre, suf, heq, hm⟩)
      · obtain ⟨ext, hext, hp⟩ := (matchHere_isExtTail_iff _ _).mp hm
        exact ⟨ext, hext, Or.inl hp⟩
      · obtain ⟨ext, hext, hp⟩ := (matchHere_isExtTail_iff _ _).mp hm
        refine ⟨ext, hext, Or.inr ⟨pre, ?_⟩⟩
        rw [heq, hp]
    · rintro ⟨ext, hext, (h | ⟨pre, h⟩)⟩
      · exact Or.inl ⟨rfl, (matchHere_isExtTail_iff _ _).mpr ⟨ext, hext, h⟩⟩
      · exact Or.inr ⟨pre, normalizeSeps target.data ++ ext, h,
          (matchHere_isExtTail_iff _ _).mpr ⟨ext, hext, rfl⟩⟩

lemma check_target_in_path_iff (full_path target : String) :
    check_target_in_path full_path target = true ↔
      SpecSuffixMatchPy full_path target := by
  unfold check_target_in_path SpecSuffixMatchPy
  by_cases hdot : '.' ∈ basenameChars (normalizeSeps target.data)
  · have hc : (basenameChars (normalizeSeps target.data)).contains '.' = true := by
      simpa [List.contains] using hdot
    simp only [hc, if_true, if_pos hdot]
    rw [searchTarget_iff]
    constructor
    · rintro (⟨-, hm⟩ | ⟨pre, suf, heq, hm⟩)
      · obtain ⟨nl, hnl, hp⟩ := (matchHere_pyExt_iff _ _).mp hm
        exact ⟨nl, hnl, Or.inl hp⟩
      · obtain ⟨nl, hnl, hp⟩ := (matchHere_pyExt_iff _ _).mp hm
        refine ⟨nl, hnl, Or.inr ⟨pre, ?_⟩⟩
        rw [heq, hp]
    · rintro ⟨nl, hnl, (h | ⟨pre, h⟩)⟩
      · exact Or.inl ⟨rfl, (matchHere_pyExt_iff _ _).mpr ⟨nl, hnl, h⟩⟩
      · exact Or.inr ⟨pre, normalizeSeps target.data ++ nl, h,
          (matchHere_pyExt_iff _ _).mpr ⟨nl, hnl, rfl⟩⟩
  · have hc : (basenameChars (normalizeSeps target.data)).contains '.' = false := by
      simpa [List.contains] using hdot
    simp only [hc, Bool.false_eq_true, if_false, if_neg hdot]
    rw [searchTarget_iff]
    constructor
    · rintro (⟨-, hm⟩ | ⟨pre, suf, heq, hm⟩)
      · obtain ⟨ext, nl, hext, hnl, hp⟩ := (matchHere_pyNoExt_iff _ _).mp hm
        exact ⟨ext, nl, hext, hnl, Or.inl hp⟩
      · obtain ⟨ext, nl, hext, hnl, hp⟩ := (matchHere_pyNoExt_iff _ _).mp hm
        refine ⟨ext, nl, hext, hnl, Or.inr ⟨pre, ?_⟩⟩
        rw [heq, hp]
    · rintro ⟨ext, nl, hext, hnl, (h | ⟨pre, h⟩)⟩
      · exact Or.inl ⟨rfl,
          (matchHere_pyNoExt_iff _ _).mpr ⟨ext, nl, hext, hnl, h⟩⟩
      · exact Or.inr ⟨pre, normalizeSeps target.data ++ (ext ++ nl), h,
          (matchHere_pyNoExt_iff _ _).mpr ⟨ext, nl, hext, hnl, rfl⟩⟩

lemma specSuffixMatch_py (full_path target : String) :
    SpecSuffixMatch full_path target → SpecSuffixMatchPy full_path target := by
  unfold SpecSuffixMatch SpecSuffixMatchPy
  by_cases hdot : '.' ∈ basenameChars (normalizeSeps target.data)
  · simp only [if_pos hdot]
    rintro (h | ⟨pre, h⟩)
    · exact ⟨[], Or.inl rfl, Or.inl (by simp [h])⟩
    · exact ⟨[], Or.inl rfl, Or.inr ⟨pre, by simp [h]⟩⟩
  · simp only [if_neg hdot]
    rintro ⟨ext, hext, (h | ⟨pre, h⟩)⟩
    · exact ⟨ext, [], hext, Or.inl rfl, Or.inl (by simp [h])⟩
    · exact ⟨ext, [], hext, Or.inl rfl, Or.inr ⟨pre, by simp [h]⟩⟩

/-- Counterexample for C1: Python's `$` also matches before one final
newline, so the source returns true on a path ending in the target followed
by a newline, although the target does not appear at the end of the path as
the claim's end-of-string relation demands. -/
theorem check_target_in_path_newline_counterexample :
    check_target_in_path "/a/b/c\n" "b/c" = true ∧
    ¬ SpecSuffixMatch "/a/b/c\n" "b/c" := by
  constructor
  · decide
  · intro h
    have hc := (specStrictCheck_iff "/a/b/c\n" "b/c").mpr h
    exact absurd hc (by decide)

/-- C1 (amended). `check_target_in_path` returns true exactly when the
(separator-normalized) target occurs preceded by the start of the string or a
separator and followed by the allowed tail — exact for a target whose
basename carries an extension, an optional single trailing extension
otherwise — reaching the end of the path or the position just before one
final newline (the semantics of the regex `$` in Python); the spec's strict
end-of-string relation still implies a match, and the three literal cases
from the specification hold. -/
theorem check_target_in_path_spec :
    (∀ full_path target : String,
      check_target_in_path full_path target = true ↔
        SpecSuffixMatchPy full_path target) ∧
    (∀ full_path target : String,
      SpecSuffixMatch full_path target →
        check_target_in_path full_path target = true) ∧
    check_target_in_path "/a/b/c.png" "b/c" = true ∧
    check_target_in_path "/a/b/my_c.png" "c" = false ∧
    check_target_in_path "/a/b/c.jpg" "c.png" = false :=
  ⟨check_target_in_path_iff,
   fun fp t h => (check_target_in_path_iff fp t).mpr (specSuffixMatch_py fp t h),
   by decide, by decide, by decide⟩

/-- Witness for C1: the strict-relation clause applied at the literal pair
from the specification, with the strict relation established by
computation. -/
theorem check_target_in_path_spec_witness :
    check_target_in_path "/a/b/c.png" "b/c" = true :=
  check_target_in_path_spec.2.1 "/a/b/c.png" "b/c"
    ((specStrictCheck_iff "/a/b/c.png" "b/c").mp (by decide))

/-- A file of a source tree: its full path (as produced by the `os.walk`
traversal) and its text content. -/
structure SrcFile where
  path : String
  content : String
deriving DecidableEq, Repr

/-- The preferred main-file basenames used as a tie-breaker by
`find_main_tex_file` (`PREFERRED_MAIN_FILE_NAMES` in latex_utils.py). -/
def PREFERRED_MAIN_FILE_NAMES : List String := ["main.tex", "ms.tex"]

/-- The basename of a path as a string, `os.path.basename`. -/
def basenameStr (p : String) : String := String.mk (basenameChars p.data)

/-- Substring test on character lists, the `in` operator on Python strings. -/
def containsSub (pat : List Char) : List Char → Bool
  | [] => pat.isPrefixOf []
  | c :: rest => pat.isPrefixOf (c :: rest) || containsSub pat rest

/-- Suffix test on character lists, `str.endswith`. -/
def strEndsWith (s suffix : String) : Bool :=
  suffix.data.isSuffixOf s.data

/-- Whether a file content contains the `\documentclass` marker. -/
def containsDocumentclass (content : String) : Bool :=
  containsSub ("\\documentclass".data) content.data

/-- The candidate main files collected by `find_main_tex_file`: files whose
path ends in `.tex` and whose content contains `\documentclass`, in the order
of the directory walk. -/
def validMainPaths (files : List SrcFile) : List String :=
  (files.filter fun f =>
    strEndsWith f.path ".tex" && containsDocumentclass f.content).map (·.path)

/-- The two `ValueError` outcomes of `find_main_tex_file`. -/
inductive FindMainError where
  | noMainFile
  | multipleMainFiles (candidates : List String)
deriving DecidableEq, Repr

/-- Embedding of `find_main_tex_file` (latex_utils.py): collect the `.tex`
files containing `\documentclass`; fail when there are none; when there are
several, return the unique one whose basename is a preferred main-file name if
exactly one exists and fail otherwise; return the unique candidate else. -/
def find_main_tex_file (files : List SrcFile) : Except FindMainError String :=
  match validMainPaths files with
  | [] => .error .noMainFile
  | [p] => .ok p
  | p₀ :: p₁ :: rest =>
    match (p₀ :: p₁ :: rest).filter
        (fun p => PREFERRED_MAIN_FILE_NAMES.contains (basenameStr p)) with
    | [q] => .ok q
    | _ => .error (.multipleMainFiles (p₀ :: p₁ :: rest))

/-- The preferred candidates among a candidate list. -/
def preferredAmong (l : List String) : List String :=
  l.filter fun p => PREFERRED_MAIN_FILE_NAMES.contains (basenameStr p)

lemma find_main_eq_of_two_le (files : List SrcFile)
    (h : 2 ≤ (validMainPaths files).length) :
    find_main_tex_file files =
      match preferredAmong (validMainPaths files) with
      | [q] => .ok q
      | _ => .error (.multipleMainFiles (validMainPaths files)) := by
  unfold find_main_tex_file preferredAmong
  rcases hv : validMainPaths files with - | ⟨p₀, - | ⟨p₁, rest⟩⟩ <;>
    simp [hv] at h ⊢

/-- C7. `find_main_tex_file` returns the unique `.tex` file containing
`\documentclass` when exactly one exists; with several candidates it returns
the unique candidate whose basename is a conventional main-file name
(`main.tex`, `ms.tex`) when exactly one such candidate exists; with zero
candidates, or several candidates without a unique conventional name, it
fails with an error. -/
theorem find_main_tex_file_spec (files : List SrcFile) :
    (validMainPaths files = [] →
      find_main_tex_file files = .error .noMainFile) ∧
    (∀ p, validMainPaths files = [p] → find_main_tex_file files = .ok p) ∧
    (∀ q, 2 ≤ (validMainPaths files).length →
      preferredAmong (validMainPaths files) = [q] →
      find_main_tex_file files = .ok q) ∧
    (2 ≤ (validMainPaths files).length →
      (preferredAmong (validMainPaths files)).length ≠ 1 →
      find_main_tex_file files =
        .error (.multipleMainFiles (validMainPaths files))) := by
  refine ⟨?_, ?_, ?_, ?_⟩
  · intro h
    unfold find_main_tex_file
    simp [h]
  · intro p h
    unfold find_main_tex_file
    simp [h]
  · intro q h hq
    rw [find_main_eq_of_two_le files h, hq]
  · intro h hq
    rw [find_main_eq_of_two_le files h]
    rcases hp : preferredAmong (validMainPaths files) with - | ⟨q, - | ⟨q', r⟩⟩
    · rfl
    · exact absurd (by simp [hp]) hq
    · rfl

/-- Demonstration source tree for `find_main_tex_file`: two `.tex` files both
containing `\documentclass`, exactly one of which is named `main.tex`. -/
def demoTexFiles : List SrcFile :=
  [⟨"src/main.tex", "\\documentclass article one"⟩,
   ⟨"src/extra/other.tex", "\\documentclass article two"⟩,
   ⟨"src/notes.txt", "\\documentclass ignored, not a tex file"⟩]

/-- Witness for C7: on `demoTexFiles` the tie-breaker picks `src/main.tex`. -/
theorem find_main_tex_file_spec_witness :
    find_main_tex_file demoTexFiles = .ok "src/main.tex" :=
  (find_main_tex_file_spec demoTexFiles).2.2.1 "src/main.tex"
    (by decide) (by decide)

/-- The non-fatal warnings emitted by `_inline_tex_files`. -/
inductive InlineWarning where
  | maxDepth (main_file_path : String)
  | fileNotFound (path : String)
deriving DecidableEq, Repr

/-- Scanner for the lazy brace group of the include/bibliography regexes: the
characters up to the first closing brace, which must occur before any newline,
together with the text after that brace; `none` when the group cannot match at
this position. -/
def scanBrace : List Char → Option (List Char × List Char)
  | [] => none
  | c :: rest =>
    if c = '}' then some ([], rest)
    else if c = '\n' then none
    else (scanBrace rest).map fun x => (c :: x.1, x.2)

lemma scanBrace_rest_length : ∀ {l cap rest : List Char},
    scanBrace l = some (cap, rest) → rest.length < l.length := by
  intro l
  induction l with
  | nil => intro cap rest h; simp [scanBrace] at h
  | cons c l ih =>
    intro cap rest h
    simp only [scanBrace] at h
    by_cases hc : c = '}'
    · rw [if_pos hc] at h
      simp only [Option.some.injEq, Prod.mk.injEq] at h
      rw [← h.2]
      simp
    · rw [if_neg hc] at h
      by_cases hn : c = '\n'
      · rw [if_pos hn] at h
        exact absurd h (by simp)
      · rw [if_neg hn] at h
        cases hsb : scanBrace l with
        | none => rw [hsb] at h; simp at h
        | some x =>
          obtain ⟨xc, xr⟩ := x
          rw [hsb] at h
          simp only [Option.map_some', Option.some.injEq, Prod.mk.injEq] at h
          rw [← h.2]
          exact Nat.lt_succ_of_lt (ih hsb)

/-- Attempt to match the rest of the `\input`/`\include` regex right after a
backslash: the literal `input{` or `include{`, then the brace capture. -/
def matchInputAt (l : List Char) : Option (List Char × List Char) :=
  if "input\x7b".data.isPrefixOf l then scanBrace (l.drop 6)
  else if "include\x7b".data.isPrefixOf l then scanBrace (l.drop 8)
  else none

lemma matchInputAt_rest_length {l rel after : List Char}
    (h : matchInputAt l = some (rel, after)) : after.length < l.length := by
  unfold matchInputAt at h
  split at h
  · have := scanBrace_rest_length h
    have hd : (l.drop 6).length ≤ l.length := by
      rw [List.length_drop]; omega
    omega
  · split at h
    · have := scanBrace_rest_length h
      have hd : (l.drop 8).length ≤ l.length := by
        rw [List.length_drop]; omega
      omega
    · exact absurd h (by simp)

/-- One substitution pass of the `\input`/`\include` regex
(`input_pattern.sub` in `_inline_tex_files`): scan left to right, replace each
match by the result of `recur` on the captured relative path, resume scanning
after the matched region; replacement text is not re-scanned. `recur` also
returns the warnings of the recursive expansion, which are accumulated. -/
def substInputs (recur : List Char → List Char × List InlineWarning) :
    List Char → List Char × List InlineWarning
  | [] => ([], [])
  | c :: rest =>
    if c = '\\' then
      match hm : matchInputAt rest with
      | some (rel, after) =>
        let r := recur rel
        let tail := substInputs recur after
        (r.1 ++ tail.1, r.2 ++ tail.2)
      | none =>
        let tail := substInputs recur rest
        (c :: tail.1, tail.2)
    else
      let tail := substInputs recur rest
      (c :: tail.1, tail.2)
termination_by l => l.length
decreasing_by
  · exact Nat.lt_succ_of_lt (matchInputAt_rest_length hm)
  · exact Nat.lt_succ_self _
  · exact Nat.lt_succ_self _

/-- One substitution pass of the `\bibliography` regex (`bib_pattern.sub` in
`_inline_tex_files`): each match is replaced by the text produced by `lookup`
for the captured bibliography name. -/
def substBib (lookup : List Char → List Char) : List Char → List Char
  | [] => []
  | c :: rest =>
    if c = '\\' then
      if "bibliography\x7b".data.isPrefixOf rest then
        match hm : scanBrace (rest.drop 13) with
        | some (name, after) => lookup name ++ substBib lookup after
        | none => c :: substBib lookup rest
      else c :: substBib lookup rest
    else c :: substBib lookup rest
termination_by l => l.length
decreasing_by
  · have h1 := scanBrace_rest_length hm
    have hd : (rest.drop 13).length ≤ rest.length := by
      rw [List.length_drop]; omega
    simp only [List.length_cons]
    omega
  · exact Nat.lt_succ_self _
  · exact Nat.lt_succ_self _
  · exact Nat.lt_succ_self _

/-- Environment of the LaTeX inliner. `read` models `open(...).read()`
(`none` models `FileNotFoundError`); `dirname` models `os.path.dirname`;
`resolve` models `os.path.normpath(os.path.flatten(base_dir, rel))`; `bibLookup`
models the `.bbl`/`.bib` resolution block of `bib_replacer` (directory and
bibliography name to the replacement content, empty when nothing is found);
`stripComments` models the two comment-removal regex passes and
`inlineCommands` models `latex_inline_command.inline_custom_commands`, whose
module is not among the sources under verification. -/
structure TexEnv where
  read : String → Option String
  dirname : String → String
  resolve : String → String → String
  bibLookup : String → String → String
  stripComments : String → String
  inlineCommands : String → String

/-- Embedding of `_inline_tex_files` (latex_utils.py): at exhausted depth warn
and return the empty string; otherwise read the file (warning and empty
content when missing), substitute every `\input`/`\include` by the recursive
expansion at depth one less of the path resolved against the root file's
directory (appending `.tex` when absent), substitute `\bibliography` by the
looked-up bibliography content, then apply the optional comment-stripping and
command-inlining passes. -/
def _inline_tex_files (env : TexEnv) (main_file_path : String)
    (remove_comments inline_commands : Bool) :
    ℕ → String → String × List InlineWarning
  | 0, _ => ("", [InlineWarning.maxDepth main_file_path])
  | d + 1, path_to_read =>
    let base_dir := env.dirname main_file_path
    let read_dir := env.dirname path_to_read
    let cw :=
      match env.read path_to_read with
      | some c => (c.data, ([] : List InlineWarning))
      | none => ([], [InlineWarning.fileNotFound path_to_read])
    let step1 :=
      substInputs (fun rel =>
        let rel' := if ".tex".data.isSuffixOf rel then rel else rel ++ ".tex".data
        let sub := _inline_tex_files env main_file_path remove_comments
          inline_commands d (env.resolve base_dir (String.mk rel'))
        (sub.1.data, sub.2)) cw.1
    let step2 :=
      substBib (fun name => (env.bibLookup read_dir (String.mk name)).data) step1.1
    let step3 :=
      if remove_comments then (env.stripComments (String.mk step2)).data else step2
    let step4 :=
      if inline_commands then (env.inlineCommands (String.mk step3)).data else step3
    (String.mk step4, cw.2 ++ step1.2)

/-- Embedding of `inline_tex_files` (latex_utils.py): run the recursive
inliner on the main file with the given depth budget (10 in the source's
default) and flags. -/
def inline_tex_files (env : TexEnv) (main_file_path : String) (max_depth : ℕ)
    (remove_comments inline_commands : Bool) : String × List InlineWarning :=
  _inline_tex_files env main_file_path remove_comments inline_commands
    max_depth main_file_path

lemma matchInputAt_input_a :
    matchInputAt ['i', 'n', 'p', 'u', 't', '{', 'a', '}'] = some (['a'], []) := by
  decide

lemma substInputs_input_a (recur : List Char → List Char × List InlineWarning) :
    substInputs recur ['\\', 'i', 'n', 'p', 'u', 't', '{', 'a', '}'] =
      ((recur ['a']).1, (recur ['a']).2) := by
  rw [substInputs]
  rw [if_pos rfl]
  split
  · next rel after heq =>
      rw [matchInputAt_input_a] at heq
      simp only [Option.some.injEq, Prod.mk.injEq] at heq
      obtain ⟨h1, h2⟩ := heq
      subst h1
      subst h2
      simp [substInputs]
  · next heq =>
      rw [matchInputAt_input_a] at heq
      cases heq

/-- A self-referential include graph: every file reads `\input{a}` and the
resolved include of `a` is again such a file. -/
def selfRefEnv : TexEnv where
  read := fun _ => some "\\input\x7ba\x7d"
  dirname := fun _ => ""
  resolve := fun _ rel => rel
  bibLookup := fun _ _ => ""
  stripComments := id
  inlineCommands := id

/-- C8. The inliner is a total function of the include graph (so recursion
never raises): at exhausted depth it returns the empty string for that branch
together with a non-fatal max-depth warning; a missing included file yields a
non-fatal warning and the empty string while processing continues; and on a
self-referential include graph it terminates at every depth budget with empty
output and exactly the one max-depth warning of the branch that exhausted the
budget. -/
theorem inline_tex_files_termination_spec :
    (∀ (env : TexEnv) (main p : String) (rc ic : Bool),
      _inline_tex_files env main rc ic 0 p =
        ("", [InlineWarning.maxDepth main])) ∧
    (∀ (env : TexEnv) (main p : String) (d : ℕ), env.read p = none →
      _inline_tex_files env main false false (d + 1) p =
        ("", [InlineWarning.fileNotFound p])) ∧
    (∀ (max_depth : ℕ) (main p : String),
      inline_tex_files selfRefEnv main max_depth false false =
        ("", [InlineWarning.maxDepth main]) ∧
      _inline_tex_files selfRefEnv main false false max_depth p =
        ("", [InlineWarning.maxDepth main])) := by
  have hstep : ∀ (main p : String) (d : ℕ),
      _inline_tex_files selfRefEnv main false false d p =
        ("", [InlineWarning.maxDepth main]) := by
    intro main p d
    induction d generalizing p with
    | zero => rfl
    | succ d ih =>
      show _inline_tex_files selfRefEnv main false false (d + 1) p = _
      rw [_inline_tex_files]
      have hdata : ("\\input\x7ba\x7d" : String).data =
          ['\\', 'i', 'n', 'p', 'u', 't', '{', 'a', '}'] := by decide
      have hsuf : ¬ (['.', 't', 'e', 'x'] <:+ ['a']) := by decide
      have hempty : ({ data := [] } : String) = "" := rfl
      simp only [selfRefEnv, hdata, substInputs_input_a]
      simp only [selfRefEnv] at ih
      simp [ih, substBib, hsuf, hempty]
  refine ⟨?_, ?_, ?_⟩
  · intro env main p rc ic
    rfl
  · intro env main p d h
    show _inline_tex_files env main false false (d + 1) p = _
    rw [_inline_tex_files]
    simp [h, substInputs, substBib]
  · intro max_depth main p
    exact ⟨hstep main main max_depth, hstep main p max_depth⟩

/-- Witness for C8: the missing-file clause applied to a concrete empty
filesystem at depth 4. -/
theorem inline_tex_files_termination_spec_witness :
    _inline_tex_files
      { read := fun _ => none, dirname := fun _ => "", resolve := fun _ r => r,
        bibLookup := fun _ _ => "", stripComments := id, inlineCommands := id }
      "main.tex" false false 4 "main.tex" =
      ("", [InlineWarning.fileNotFound "main.tex"]) :=
  inline_tex_files_termination_spec.2.1 _ "main.tex" "main.tex" 3 rfl

/-- Python `str.split('/')` on character lists: splits at every separator and
keeps empty segments. -/
def splitOnSlashChars : List Char → List (List Char)
  | [] => [[]]
  | c :: rest =>
    if c = '/' then [] :: splitOnSlashChars rest
    else
      match splitOnSlashChars rest with
      | [] => [[c]]
      | g :: gs => (c :: g) :: gs

/-- Python `os.path.flatten(*segs)` for segments that contain no separator: start
from the first segment and append each following one, inserting a separator
unless the accumulated path is empty or already ends in a separator. -/
def pyJoinSegs : List (List Char) → List Char
  | [] => []
  | s :: rest =>
    rest.foldl
      (fun cur seg =>
        if cur.isEmpty || cur.getLast? == some '/' then cur ++ seg
        else cur ++ '/' :: seg) s

/-- The `latex_path` normalization of `extract_images_from_latex_source`:
`os.path.flatten(*image_content.latex_path.split('/'))`. -/
def normalizeLatexPath (s : String) : String :=
  String.mk (pyJoinSegs (splitOnSlashChars s.data))

/-- Python `str.lower()` (character-wise, as used on ASCII file paths). -/
def lowerChars (s : String) : String := String.mk (s.data.map Char.toLower)

/-- Index of the last dot of a name, Python `str.rfind('.')` as `Option`. -/
def lastDotIdx (l : List Char) : Option ℕ :=
  l.enum.foldl (fun acc x => if x.2 = '.' then some x.1 else acc) none

/-- Embedding of `pathlib.PurePath.stem`: the final component without its suffix, where a
suffix requires a dot that is neither the first nor past the last character of
the name. -/
def pathlibStem (p : String) : String :=
  let name := basenameChars p.data
  match lastDotIdx name with
  | some k =>
    if 0 < k ∧ k < name.length - 1 then String.mk (name.take k)
    else String.mk name
  | none => String.mk name

/-- Embedding of `pathlib.PurePath.with_name`: replace the final path component. -/
def withName (p : String) (newName : String) : String :=
  let cs := p.data
  String.mk (cs.take (cs.length - (basenameChars cs).length) ++ newName.data)

/-- The fatal `ValueError` of `extract_images_from_latex_source`, raised when
several files match one `latex_path`; it carries the target and every
matching candidate path as the raised message does. -/
inductive ExtractError where
  | ambiguousImage (target : String) (candidates : List String)
deriving DecidableEq, Repr

/-- The non-fatal warnings emitted by `extract_images_from_latex_source`. -/
inductive ImgWarning where
  | notFound (target : String)
  | pdfConvertFailed (target : String)
  | uploadFailed (src dest : String)
  | processFailed (target : String)
deriving DecidableEq, Repr

/-- Embedding of the `ImageContent` dataclass (shared/lumi_doc.py), restricted
to the fields read or written by image extraction (`alt_text` and `caption`
are carried through untouched by the source and are omitted). -/
structure ImageContent where
  storage_path : String
  latex_path : String
  width : ℚ
  height : ℚ
deriving DecidableEq, Repr

/-- Embedding of `ImageMetadata` (shared/types.py). -/
structure ImageMetadata where
  storage_path : String
  width : ℚ
  height : ℚ
deriving DecidableEq, Repr

/-- Environment of image extraction. `files` lists the file paths below
`source_dir` in `os.walk` order; `convertPdf` models the pypdfium2 first-page
render (`some` is the temporary PNG path written for the PDF, `none` an
exception caught by the surrounding handler, including the zero-page case);
`readImageSize` models the dimensions from `PIL.Image.open` (`none` a
failure); `persistOk` tells whether copying or uploading `src` to `dest`
succeeds. -/
structure ImageEnv where
  files : List String
  convertPdf : String → Option String
  readImageSize : String → Option (ℚ × ℚ)
  persistOk : String → String → Bool

/-- The normalized search target of one image. -/
def targetOf (ic : ImageContent) : String := normalizeLatexPath ic.latex_path

/-- The candidate paths matching one image, `found_paths` in the source. -/
def matchesFor (env : ImageEnv) (ic : ImageContent) : List String :=
  env.files.filter fun f => check_target_in_path f (targetOf ic)

/-- The tail of the per-image loop body once a unique source path is resolved:
read the dimensions, persist the bytes, and on success record the dimensions
on the image and produce its metadata; any failure warns and skips. -/
def processResolved (env : ImageEnv) (run_locally : Bool) (ic : ImageContent)
    (srcPath target : String) :
    Except ExtractError (ImageContent × Option ImageMetadata × List ImgWarning) :=
  match env.readImageSize srcPath with
  | none => .ok (ic, none, [ImgWarning.processFailed target])
  | some (w, h) =>
    if env.persistOk srcPath ic.storage_path then
      .ok ({ ic with width := w, height := h },
        some ⟨ic.storage_path, w, h⟩, [])
    else if run_locally then
      .ok (ic, none, [ImgWarning.processFailed target])
    else
      .ok (ic, none, [ImgWarning.uploadFailed srcPath ic.storage_path])

/-- The per-image loop body of `extract_images_from_latex_source`: zero
matches warn and skip; several matches raise the ambiguity error carrying all
candidates; a unique match is processed, converting a PDF first (on success
the storage path gains the `_pdf.png` name, on failure the image is skipped
with a warning). -/
def processImage (env : ImageEnv) (run_locally : Bool) (ic : ImageContent) :
    Except ExtractError (ImageContent × Option ImageMetadata × List ImgWarning) :=
  match matchesFor env ic with
  | [] => .ok (ic, none, [ImgWarning.notFound (targetOf ic)])
  | [src] =>
    if strEndsWith (lowerChars src) ".pdf" then
      match env.convertPdf src with
      | none => .ok (ic, none, [ImgWarning.pdfConvertFailed (targetOf ic)])
      | some tempPng =>
        processResolved env run_locally
          { ic with storage_path :=
              withName ic.storage_path (pathlibStem ic.storage_path ++ "_pdf.png") }
          tempPng (targetOf ic)
    else processResolved env run_locally ic src (targetOf ic)
  | more => .error (.ambiguousImage (targetOf ic) more)

/-- Embedding of `extract_images_from_latex_source` (image_utils.py): the
per-image loop over the parsed image contents, returning the updated images,
the metadata of the successfully processed ones and the warnings, or the
first ambiguity error. -/
def extract_images_from_latex_source (env : ImageEnv) (run_locally : Bool) :
    List ImageContent →
      Except ExtractError (List ImageContent × List ImageMetadata × List ImgWarning)
  | [] => .ok ([], [], [])
  | ic :: rest => do
    let (ic', m, w) ← processImage env run_locally ic
    let (rest', ms, ws) ← extract_images_from_latex_source env run_locally rest
    return (ic' :: rest', m.toList ++ ms, w ++ ws)

lemma processResolved_isOk (env : ImageEnv) (rl : Bool) (ic : ImageContent)
    (src target : String) :
    ∃ out, processResolved env rl ic src target = .ok out := by
  unfold processResolved
  split
  · exact ⟨_, rfl⟩
  · split
    · exact ⟨_, rfl⟩
    · split
      · exact ⟨_, rfl⟩
      · exact ⟨_, rfl⟩

lemma processImage_notFound (env : ImageEnv) (rl : Bool) (ic : ImageContent)
    (h : matchesFor env ic = []) :
    processImage env rl ic = .ok (ic, none, [ImgWarning.notFound (targetOf ic)]) := by
  unfold processImage
  rw [h]

lemma processImage_ambiguous (env : ImageEnv) (rl : Bool) (ic : ImageContent)
    (h : 2 ≤ (matchesFor env ic).length) :
    processImage env rl ic =
      .error (.ambiguousImage (targetOf ic) (matchesFor env ic)) := by
  unfold processImage
  rcases hm : matchesFor env ic with - | ⟨p, - | ⟨q, r⟩⟩ <;> simp [hm] at h ⊢

lemma processImage_isOk (env : ImageEnv) (rl : Bool) (ic : ImageContent)
    (h : (matchesFor env ic).length ≤ 1) :
    ∃ out, processImage env rl ic = .ok out := by
  rcases hm : matchesFor env ic with - | ⟨src, - | ⟨q, r⟩⟩
  · exact ⟨_, processImage_notFound env rl ic hm⟩
  · unfold processImage
    rw [hm]
    by_cases hpdf : strEndsWith (lowerChars src) ".pdf"
    · simp only [hpdf, if_true]
      rcases hc : env.convertPdf src with - | tempPng
      · exact ⟨_, rfl⟩
      · exact processResolved_isOk env rl _ tempPng _
    · simp only [hpdf, if_false]
      exact processResolved_isOk env rl ic src _
  · rw [hm] at h
    simp at h

/-- C2. Per image: zero suffix matches yields a warning and leaves the image
record unchanged (so its dimensions stay at their initial zero) while
processing continues; a unique match is processed without a raised error; two
or more matches raise the ambiguity error naming all matching candidate
paths, and the whole extraction raises that error exactly when the earlier
images each had at most one match. -/
theorem extract_images_from_latex_source_spec (env : ImageEnv) (rl : Bool) :
    (∀ ic, matchesFor env ic = [] →
      processImage env rl ic =
        .ok (ic, none, [ImgWarning.notFound (targetOf ic)])) ∧
    (∀ ic, 2 ≤ (matchesFor env ic).length →
      processImage env rl ic =
        .error (.ambiguousImage (targetOf ic) (matchesFor env ic))) ∧
    (∀ ic, (matchesFor env ic).length ≤ 1 →
      ∃ out, processImage env rl ic = .ok out) ∧
    (∀ ics, (∀ ic ∈ ics, (matchesFor env ic).length ≤ 1) →
      ∃ upd ms ws,
        extract_images_from_latex_source env rl ics = .ok (upd, ms, ws) ∧
        List.Forall₂ (fun a b => matchesFor env a = [] → b = a) ics upd) ∧
    (∀ pre ic post, (∀ j ∈ pre, (matchesFor env j).length ≤ 1) →
      2 ≤ (matchesFor env ic).length →
      extract_images_from_latex_source env rl (pre ++ ic :: post) =
        .error (.ambiguousImage (targetOf ic) (matchesFor env ic))) := by
  refine ⟨processImage_notFound env rl, processImage_ambiguous env rl,
    processImage_isOk env rl, ?_, ?_⟩
  · intro ics hall
    induction ics with
    | nil => exact ⟨[], [], [], rfl, List.Forall₂.nil⟩
    | cons ic rest ih =>
      obtain ⟨⟨ic', m, w⟩, hp⟩ :=
        processImage_isOk env rl ic (hall ic (by simp))
      obtain ⟨upd, ms, ws, hrest, hfa⟩ :=
        ih fun j hj => hall j (by simp [hj])
      refine ⟨ic' :: upd, m.toList ++ ms, w ++ ws, ?_, ?_⟩
      · simp only [extract_images_from_latex_source, hp, hrest]
        rfl
      · refine List.Forall₂.cons ?_ hfa
        intro hnil
        rw [processImage_notFound env rl ic hnil] at hp
        injection hp with hp'
        exact (Prod.mk.injEq _ _ _ _ ▸ hp').1.symm
  · intro pre ic post hpre h2
    induction pre with
    | nil =>
      simp only [List.nil_append]
      simp only [extract_images_from_latex_source,
        processImage_ambiguous env rl ic h2]
      rfl
    | cons j rest ih =>
      obtain ⟨⟨j', m, w⟩, hp⟩ :=
        processImage_isOk env rl j (hpre j (by simp))
      have htail := ih fun x hx => hpre x (by simp [hx])
      simp only [List.cons_append]
      simp only [extract_images_from_latex_source, hp, htail]
      rfl

/-- Concrete extraction environment: one file matches `a.png`, two files match
`b.png`. -/
def demoImageEnv : ImageEnv where
  files := ["img/a.png", "x/b.png", "y/b.png"]
  convertPdf := fun _ => none
  readImageSize := fun _ => some (3, 2)
  persistOk := fun _ _ => true

/-- Witness for C2: with one unambiguous earlier image, the ambiguous
`b.png` reference aborts extraction with an error naming both candidates. -/
theorem extract_images_from_latex_source_spec_witness :
    extract_images_from_latex_source demoImageEnv true
      [⟨"s/a.png", "a.png", 0, 0⟩, ⟨"s/b.png", "b.png", 0, 0⟩] =
      .error (.ambiguousImage "b.png" ["x/b.png", "y/b.png"]) := by
  have h := (extract_images_from_latex_source_spec demoImageEnv true).2.2.2.2
    [⟨"s/a.png", "a.png", 0, 0⟩] ⟨"s/b.png", "b.png", 0, 0⟩ []
    (by decide) (by decide)
  have ht : targetOf ⟨"s/b.png", "b.png", 0, 0⟩ = "b.png" := by decide
  have hm : matchesFor demoImageEnv ⟨"s/b.png", "b.png", 0, 0⟩ =
      ["x/b.png", "y/b.png"] := by decide
  rw [ht, hm] at h
  exact h

/-- Modelled from the spec: the `LoadingStatus` enum of `shared/types.py` is
not among the sources under verification; the members are taken from §4.5 of
the specification and the call sites in `backend/db.py` and
`backend/worker.py`.  As a Python `Enum`, every member is truthy. -/
inductive LoadingStatus where
  | UNSET
  | WAITING
  | SUMMARIZING
  | SUCCESS
  | ERROR_DOCUMENT_LOAD
  | TIMEOUT
deriving DecidableEq, Repr

/-- Embedding of the `JobRecord` dataclass (backend/db.py); timestamps are
integers and `progress_percent` an exact rational. -/
structure JobRecord where
  job_id : String
  arxiv_id : String
  version : Option String
  status : LoadingStatus
  stage : String
  progress_percent : ℚ
  locked_at : Option ℤ
  created_at : ℤ
  updated_at : ℤ
deriving DecidableEq, Repr

/-- State of `InMemoryDbClient` restricted to jobs: the `jobs` dict in
insertion order (keys are the unique `job_id`s) and the `locked` set as a
list. -/
structure InMemoryDb where
  jobs : List JobRecord
  locked : List String
deriving DecidableEq, Repr

/-- Embedding of `InMemoryDbClient.create_import_job`: append a fresh
`WAITING` record; the generated uuid and the current time are parameters. -/
def im_create_import_job (db : InMemoryDb) (arxiv_id : String)
    (version : Option String) (job_id : String) (now : ℤ) :
    JobRecord × InMemoryDb :=
  let record : JobRecord :=
    { job_id := job_id, arxiv_id := arxiv_id, version := version,
      status := .WAITING, stage := "WAITING", progress_percent := 0,
      locked_at := none, created_at := now, updated_at := now }
  (record, { db with jobs := db.jobs ++ [record] })

/-- The scan of `InMemoryDbClient.claim_next_waiting_job` over the jobs in
insertion order: the first job that is `WAITING` and not in the locked set
gets status `SUMMARIZING` and `locked_at` set (the source touches neither
`stage` nor `updated_at`). -/
def imClaimAux (locked : List String) (now : ℤ) :
    List JobRecord → Option JobRecord × List JobRecord
  | [] => (none, [])
  | j :: rest =>
    if j.status = .WAITING ∧ j.job_id ∉ locked then
      let j' := { j with status := .SUMMARIZING, locked_at := some now }
      (some j', j' :: rest)
    else
      let r := imClaimAux locked now rest
      (r.1, j :: r.2)

/-- Embedding of `InMemoryDbClient.claim_next_waiting_job`: scan for a
claimable job; on success its id is added to the locked set. -/
def im_claim_next_waiting_job (db : InMemoryDb) (now : ℤ) :
    Option JobRecord × InMemoryDb :=
  let r := imClaimAux db.locked now db.jobs
  match r.1 with
  | some j => (some j, { jobs := r.2, locked := db.locked ++ [j.job_id] })
  | none => (none, { db with jobs := r.2 })

/-- The staleness test of `InMemoryDbClient.requeue_stale_locks`:
`status == SUMMARIZING and stage == "CLAIMED" and locked_at and
now - locked_at > lock_timeout_seconds`; a `locked_at` of `0` is falsy in
Python and is modelled so. -/
def imStale (now timeout : ℤ) (j : JobRecord) : Bool :=
  j.status == .SUMMARIZING && j.stage == "CLAIMED" &&
    (match j.locked_at with
     | none => false
     | some l => !(l == 0) && decide (now - l > timeout))

/-- The reset applied by both requeue implementations to a stale job. -/
def requeueReset (now : ℤ) (j : JobRecord) : JobRecord :=
  { j with
    status := .WAITING, stage := "WAITING", progress_percent := 0,
    locked_at := none, updated_at := now }

/-- Embedding of `InMemoryDbClient.requeue_stale_locks`: reset every stale
job and return how many were requeued (the locked set is not touched by the
source). -/
def im_requeue_stale_locks (db : InMemoryDb) (now timeout : ℤ) :
    ℕ × InMemoryDb :=
  ((db.jobs.filter (imStale now timeout)).length,
   { db with jobs := db.jobs.map fun j =>
      if imStale now timeout j then requeueReset now j else j })

/-- The conditional field updates shared by the two `update_job_progress`
implementations: `if status:` applies any passed enum member (all truthy),
`if stage:` applies a passed stage only when non-empty (the empty string is
falsy), `progress_percent` is compared against `None`, and `updated_at` is
always written. -/
def applyProgressUpdate (status : Option LoadingStatus) (stage : Option String)
    (progress_percent : Option ℚ) (now : ℤ) (j : JobRecord) : JobRecord :=
  let j₁ := match status with
    | some st => { j with status := st }
    | none => j
  let j₂ := match stage with
    | some s => if s = "" then j₁ else { j₁ with stage := s }
    | none => j₁
  let j₃ := match progress_percent with
    | some p => { j₂ with progress_percent := p }
    | none => j₂
  { j₃ with updated_at := now }

/-- Embedding of `InMemoryDbClient.update_job_progress`: update the record
with the given id, if any (ids are dict keys, hence unique); a missing id
changes nothing and raises nothing. -/
def im_update_job_progress (db : InMemoryDb) (job_id : String)
    (status : Option LoadingStatus) (stage : Option String)
    (progress_percent : Option ℚ) (now : ℤ) : InMemoryDb :=
  { db with jobs := db.jobs.map fun j =>
      if j.job_id = job_id then
        applyProgressUpdate status stage progress_percent now j
      else j }

/-- State of `PostgresDbClient` restricted to the jobs table (primary key
`job_id`). -/
structure PgDb where
  jobs : List JobRecord
deriving DecidableEq, Repr

/-- One step of the minimal-`created_at` selection: keep the accumulator
unless the new row was created strictly earlier. -/
def pgMinStep (acc : Option JobRecord) (j : JobRecord) : Option JobRecord :=
  match acc with
  | none => some j
  | some b => if j.created_at < b.created_at then some j else some b

/-- The row selected by `SELECT ... WHERE status = WAITING ORDER BY created_at
ASC LIMIT 1`: the first `WAITING` row of minimal `created_at`. -/
def pgFirstWaiting (jobs : List JobRecord) : Option JobRecord :=
  (jobs.filter fun j => j.status == .WAITING).foldl pgMinStep none

/-- Embedding of `PostgresDbClient.claim_next_waiting_job`: the selected
waiting row gets status `SUMMARIZING`, stage `CLAIMED`, `locked_at` and
`updated_at` set. -/
def pg_claim_next_waiting_job (db : PgDb) (now : ℤ) :
    Option JobRecord × PgDb :=
  match pgFirstWaiting db.jobs with
  | none => (none, db)
  | some j =>
    let j' := { j with
      status := .SUMMARIZING, stage := "CLAIMED",
      locked_at := some now, updated_at := now }
    (some j', ⟨db.jobs.map fun k => if k.job_id = j.job_id then j' else k⟩)

/-- The filter of `PostgresDbClient.requeue_stale_locks`:
`status == SUMMARIZING, stage == "CLAIMED", locked_at != None,
locked_at < cutoff`. -/
def pgStale (cutoff : ℤ) (j : JobRecord) : Bool :=
  j.status == .SUMMARIZING && j.stage == "CLAIMED" &&
    (match j.locked_at with
     | none => false
     | some l => decide (l < cutoff))

/-- Embedding of `PostgresDbClient.requeue_stale_locks`: one bulk update
resetting every stale row, returning the number of updated rows. -/
def pg_requeue_stale_locks (db : PgDb) (now timeout : ℤ) : ℕ × PgDb :=
  ((db.jobs.filter (pgStale (now - timeout))).length,
   ⟨db.jobs.map fun j =>
      if pgStale (now - timeout) j then requeueReset now j else j⟩)

/-- Embedding of `PostgresDbClient.update_job_progress` (same conditional
field logic as the in-memory client, keyed by primary key; a missing id
changes nothing and raises nothing). -/
def pg_update_job_progress (db : PgDb) (job_id : String)
    (status : Option LoadingStatus) (stage : Option String)
    (progress_percent : Option ℚ) (now : ℤ) : PgDb :=
  ⟨db.jobs.map fun j =>
    if j.job_id = job_id then
      applyProgressUpdate status stage progress_percent now j
    else j⟩

lemma imClaimAux_spec (locked : List String) (now : ℤ) :
    ∀ {jobs : List JobRecord} {j : JobRecord} {jobs' : List JobRecord},
      imClaimAux locked now jobs = (some j, jobs') →
      ∃ pre prev post,
        jobs = pre ++ prev :: post ∧
        jobs' = pre ++
          ({ prev with status := .SUMMARIZING, locked_at := some now }) :: post ∧
        prev.status = .WAITING ∧ prev.job_id ∉ locked ∧
        j = { prev with status := .SUMMARIZING, locked_at := some now } := by
  intro jobs
  induction jobs with
  | nil => intro j jobs' h; simp [imClaimAux] at h
  | cons a rest ih =>
    intro j jobs' h
    rcases hr : imClaimAux locked now rest with ⟨ro, rl⟩
    by_cases hc : a.status = .WAITING ∧ a.job_id ∉ locked
    · simp only [imClaimAux, if_pos hc, Prod.mk.injEq, Option.some.injEq] at h
      exact ⟨[], a, rest, rfl, by simp [← h.2], hc.1, hc.2, h.1.symm⟩
    · simp only [imClaimAux, if_neg hc] at h
      rw [hr] at h
      simp only [Prod.mk.injEq] at h
      obtain ⟨h1, h2⟩ := h
      subst h1
      obtain ⟨pre, prev, post, he, he', hw, hnl, hj⟩ := ih hr
      exact ⟨a :: pre, prev, post, by simp [he], by simp [← h2, he'], hw, hnl, hj⟩

lemma im_claim_spec {db : InMemoryDb} {now : ℤ} {j : JobRecord}
    {db' : InMemoryDb}
    (h : im_claim_next_waiting_job db now = (some j, db')) :
    ∃ pre prev post,
      db.jobs = pre ++ prev :: post ∧
      db'.jobs = pre ++
        ({ prev with status := .SUMMARIZING, locked_at := some now }) :: post ∧
      db'.locked = db.locked ++ [j.job_id] ∧
      prev.status = .WAITING ∧ prev.job_id ∉ db.locked ∧
      j = { prev with status := .SUMMARIZING, locked_at := some now } := by
  unfold im_claim_next_waiting_job at h
  rcases hr : imClaimAux db.locked now db.jobs with ⟨ro, rl⟩
  rw [hr] at h
  cases ro with
  | none => simp at h
  | some c =>
    simp only [Option.some.injEq, Prod.mk.injEq] at h
    obtain ⟨hc, hdb⟩ := h
    subst hc
    obtain ⟨pre, prev, post, he, he', hw, hnl, hj⟩ :=
      imClaimAux_spec db.locked now hr
    refine ⟨pre, prev, post, he, ?_, ?_, hw, hnl, hj⟩
    · rw [← hdb]; exact he'
    · rw [← hdb]

lemma pgMinFold_mem :
    ∀ (l : List JobRecord) (acc : Option JobRecord) (j : JobRecord),
      l.foldl pgMinStep acc = some j → acc = some j ∨ j ∈ l := by
  intro l
  induction l with
  | nil => intro acc j h; exact Or.inl h
  | cons x xs ih =>
    intro acc j h
    rcases ih (pgMinStep acc x) j h with h' | h'
    · cases acc with
      | none =>
        simp only [pgMinStep, Option.some.injEq] at h'
        exact Or.inr (by simp [← h'])
      | some b =>
        simp only [pgMinStep] at h'
        by_cases hlt : x.created_at < b.created_at
        · rw [if_pos hlt] at h'
          injection h' with h''
          exact Or.inr (by simp [← h''])
        · rw [if_neg hlt] at h'
          exact Or.inl h'
    · exact Or.inr (List.mem_cons_of_mem x h')

lemma pgFirstWaiting_spec {jobs : List JobRecord} {j : JobRecord}
    (h : pgFirstWaiting jobs = some j) : j ∈ jobs ∧ j.status = .WAITING := by
  unfold pgFirstWaiting at h
  rcases pgMinFold_mem _ _ _ h with h' | h'
  · cases h'
  · rw [List.mem_filter] at h'
    exact ⟨h'.1, by simpa using h'.2⟩

lemma pg_claim_spec {db : PgDb} {now : ℤ} {j : JobRecord} {db' : PgDb}
    (h : pg_claim_next_waiting_job db now = (some j, db')) :
    ∃ j₀, j₀ ∈ db.jobs ∧ j₀.status = .WAITING ∧
      j = { j₀ with
        status := .SUMMARIZING, stage := "CLAIMED",
        locked_at := some now, updated_at := now } ∧
      db'.jobs = db.jobs.map fun k => if k.job_id = j₀.job_id then j else k := by
  unfold pg_claim_next_waiting_job at h
  rcases hf : pgFirstWaiting db.jobs with - | j₀
  · rw [hf] at h; simp at h
  · rw [hf] at h
    simp only [Option.some.injEq, Prod.mk.injEq] at h
    obtain ⟨hj, hdb⟩ := h
    obtain ⟨hmem, hw⟩ := pgFirstWaiting_spec hf
    refine ⟨j₀, hmem, hw, hj.symm, ?_⟩
    rw [← hdb, ← hj]

/-- Concrete waiting job for the claim counterexample and witness. -/
def c4DemoJob : JobRecord :=
  { job_id := "j1", arxiv_id := "1234.56789", version := some "1",
    status := .WAITING, stage := "WAITING", progress_percent := 0,
    locked_at := none, created_at := 0, updated_at := 0 }

/-- Concrete in-memory store holding one waiting job. -/
def c4DemoDb : InMemoryDb := { jobs := [c4DemoJob], locked := [] }

/-- Counterexample for C4: the in-memory client claims the waiting job but
leaves its stage at `WAITING`, not `CLAIMED`. -/
theorem im_claim_stage_counterexample :
    ((im_claim_next_waiting_job c4DemoDb 5).1.map fun j => j.stage) =
        some "WAITING" ∧
    ("WAITING" : String) ≠ "CLAIMED" := by
  constructor
  · rfl
  · decide

/-- C4 (amended). Whenever `claim_next_waiting_job` returns a job, that job
was `WAITING` in the store beforehand and the returned record has the
in-progress status `SUMMARIZING` (hence not `WAITING`) and a non-null
`locked_at`; the Postgres client additionally sets stage `CLAIMED`, while the
in-memory client leaves the record's stage unchanged. -/
theorem claim_next_waiting_job_spec :
    (∀ (db : InMemoryDb) (now : ℤ) (j : JobRecord) (db' : InMemoryDb),
      im_claim_next_waiting_job db now = (some j, db') →
      ∃ prev, prev ∈ db.jobs ∧ prev.job_id = j.job_id ∧
        prev.status = .WAITING ∧ j.status = .SUMMARIZING ∧
        j.status ≠ .WAITING ∧ j.locked_at = some now ∧ j.stage = prev.stage) ∧
    (∀ (db : PgDb) (now : ℤ) (j : JobRecord) (db' : PgDb),
      pg_claim_next_waiting_job db now = (some j, db') →
      ∃ prev, prev ∈ db.jobs ∧ prev.job_id = j.job_id ∧
        prev.status = .WAITING ∧ j.status = .SUMMARIZING ∧
        j.status ≠ .WAITING ∧ j.stage = "CLAIMED" ∧ j.locked_at = some now) := by
  constructor
  · intro db now j db' h
    obtain ⟨pre, prev, post, he, he', hl, hw, hnl, hj⟩ := im_claim_spec h
    subst hj
    exact ⟨prev, by simp [he], by simp, hw, by simp, by simp, by simp, by simp⟩
  · intro db now j db' h
    obtain ⟨j₀, hmem, hw, hj, hdb⟩ := pg_claim_spec h
    subst hj
    exact ⟨j₀, hmem, by simp, hw, by simp, by simp, by simp, by simp⟩

/-- Witness for C4: the amended claim applied to the concrete one-job store
(the claim equation is discharged by computation). -/
theorem claim_next_waiting_job_spec_witness :
    ∃ prev, prev ∈ c4DemoDb.jobs ∧ prev.status = LoadingStatus.WAITING := by
  obtain ⟨prev, hmem, -, hw, -⟩ := claim_next_waiting_job_spec.1 c4DemoDb 5
    { c4DemoJob with status := .SUMMARIZING, locked_at := some 5 }
    { jobs := [{ c4DemoJob with status := .SUMMARIZING, locked_at := some 5 }],
      locked := ["j1"] }
    rfl
  exact ⟨prev, hmem, hw⟩

lemma forall₂_map_self {α β : Type _} (f : α → β) (P : α → β → Prop) :
    ∀ l : List α, (∀ x ∈ l, P x (f x)) → List.Forall₂ P l (l.map f) := by
  intro l
  induction l with
  | nil => intro; exact List.Forall₂.nil
  | cons a t ih =>
    intro h
    exact List.Forall₂.cons (h a (by simp)) (ih fun x hx => h x (by simp [hx]))

/-- C5. Requeue touches only jobs in the claimed stage (status `SUMMARIZING`,
stage `CLAIMED`) whose lock is older than the timeout; each such job returns
to `WAITING` with `locked_at` cleared, and every other job — any other stage
or status, including completed ones — is left entirely unchanged, for both
store implementations. -/
theorem requeue_stale_locks_spec :
    (∀ (now timeout : ℤ) (j : JobRecord),
      (imStale now timeout j = true →
        j.status = .SUMMARIZING ∧ j.stage = "CLAIMED" ∧
          ∃ l, j.locked_at = some l ∧ now - l > timeout) ∧
      (pgStale (now - timeout) j = true →
        j.status = .SUMMARIZING ∧ j.stage = "CLAIMED" ∧
          ∃ l, j.locked_at = some l ∧ now - l > timeout)) ∧
    (∀ (db : InMemoryDb) (now timeout : ℤ),
      List.Forall₂ (fun j j' =>
        (imStale now timeout j = false → j' = j) ∧
        (imStale now timeout j = true →
          j'.status = .WAITING ∧ j'.locked_at = none ∧
            j'.stage = "WAITING" ∧ j'.job_id = j.job_id))
        db.jobs (im_requeue_stale_locks db now timeout).2.jobs ∧
      (im_requeue_stale_locks db now timeout).2.locked = db.locked) ∧
    (∀ (db : PgDb) (now timeout : ℤ),
      List.Forall₂ (fun j j' =>
        (pgStale (now - timeout) j = false → j' = j) ∧
        (pgStale (now - timeout) j = true →
          j'.status = .WAITING ∧ j'.locked_at = none ∧
            j'.stage = "WAITING" ∧ j'.job_id = j.job_id))
        db.jobs (pg_requeue_stale_locks db now timeout).2.jobs) := by
  refine ⟨?_, ?_, ?_⟩
  · intro now timeout j
    constructor
    · intro h
      rcases hlk : j.locked_at with - | l
      · simp [imStale, hlk] at h
      · simp only [imStale, hlk, Bool.and_eq_true, beq_iff_eq,
          Bool.not_eq_true', beq_eq_false_iff_ne, decide_eq_true_eq] at h
        exact ⟨h.1.1, h.1.2, l, rfl, h.2.2⟩
    · intro h
      rcases hlk : j.locked_at with - | l
      · simp [pgStale, hlk] at h
      · simp only [pgStale, hlk, Bool.and_eq_true, beq_iff_eq,
          decide_eq_true_eq] at h
        exact ⟨h.1.1, h.1.2, l, rfl, by omega⟩
  · intro db now timeout
    constructor
    · apply forall₂_map_self
      intro x hx
      constructor
      · intro hs; simp [hs]
      · intro hs; simp [hs, requeueReset]
    · rfl
  · intro db now timeout
    apply forall₂_map_self
    intro x hx
    constructor
    · intro hs; simp [hs]
    · intro hs; simp [hs, requeueReset]

/-- Concrete stale claimed job for the requeue witness. -/
def c5StaleJob : JobRecord :=
  { job_id := "s1", arxiv_id := "a", version := none,
    status := .SUMMARIZING, stage := "CLAIMED", progress_percent := 1/2,
    locked_at := some 1, created_at := 0, updated_at := 1 }

/-- Witness for C5: the staleness characterization applied to a concrete
claimed job whose lock is 999 seconds old against a 600 second timeout. -/
theorem requeue_stale_locks_spec_witness :
    c5StaleJob.status = .SUMMARIZING ∧ c5StaleJob.stage = "CLAIMED" ∧
      ∃ l, c5StaleJob.locked_at = some l ∧ 1000 - l > 600 :=
  (requeue_stale_locks_spec.1 1000 600 c5StaleJob).1 (by decide)

/-- C9. Claims are modelled as atomic store transitions (the in-memory scan
runs under the interpreter lock and is guarded by the explicit locked set;
the Postgres claim is one transaction using `FOR UPDATE SKIP LOCKED`); under
this model two successive claims never return the same job, for either store,
so at most one worker observes a successful claim for a given job. -/
theorem claim_next_waiting_job_unique :
    (∀ (db : InMemoryDb) (now₁ now₂ : ℤ) (j₁ : JobRecord) (db₁ : InMemoryDb)
        (j₂ : JobRecord) (db₂ : InMemoryDb),
      im_claim_next_waiting_job db now₁ = (some j₁, db₁) →
      im_claim_next_waiting_job db₁ now₂ = (some j₂, db₂) →
      j₁.job_id ≠ j₂.job_id) ∧
    (∀ (db : PgDb) (now₁ now₂ : ℤ) (j₁ : JobRecord) (db₁ : PgDb)
        (j₂ : JobRecord) (db₂ : PgDb),
      pg_claim_next_waiting_job db now₁ = (some j₁, db₁) →
      pg_claim_next_waiting_job db₁ now₂ = (some j₂, db₂) →
      j₁.job_id ≠ j₂.job_id) := by
  constructor
  · intro db now₁ now₂ j₁ db₁ j₂ db₂ h1 h2 heq
    obtain ⟨-, -, -, -, -, hl1, -, -, -⟩ := im_claim_spec h1
    obtain ⟨-, prev₂, -, -, -, -, -, hnl2, hj2⟩ := im_claim_spec h2
    apply hnl2
    rw [hl1]
    have hid : prev₂.job_id = j₂.job_id := by rw [hj2]
    rw [List.mem_append]
    exact Or.inr (by simp [hid, ← heq])
  · intro db now₁ now₂ j₁ db₁ j₂ db₂ h1 h2 heq
    obtain ⟨a, -, -, hja, hdba⟩ := pg_claim_spec h1
    obtain ⟨b, hmemb, hwb, hjb, -⟩ := pg_claim_spec h2
    rw [hdba] at hmemb
    obtain ⟨k, hk, hkeq⟩ := List.mem_map.mp hmemb
    by_cases hid : k.job_id = a.job_id
    · rw [if_pos hid] at hkeq
      rw [← hkeq, hja] at hwb
      simp at hwb
    · rw [if_neg hid] at hkeq
      apply hid
      have hb : b.job_id = j₂.job_id := by rw [hjb]
      have ha : a.job_id = j₁.job_id := by rw [hja]
      rw [hkeq, hb, ← heq, ha]

/-- Two distinct waiting jobs for the uniqueness witness. -/
def c9JobA : JobRecord :=
  { job_id := "q1", arxiv_id := "a", version := none,
    status := .WAITING, stage := "WAITING", progress_percent := 0,
    locked_at := none, created_at := 0, updated_at := 0 }

/-- Second waiting job of the uniqueness witness. -/
def c9JobB : JobRecord :=
  { job_id := "q2", arxiv_id := "b", version := none,
    status := .WAITING, stage := "WAITING", progress_percent := 0,
    locked_at := none, created_at := 1, updated_at := 1 }

/-- Concrete in-memory store with two waiting jobs. -/
def c9Db : InMemoryDb := { jobs := [c9JobA, c9JobB], locked := [] }

/-- Witness for C9: two successive claims against the two-job store return
distinct job ids; both claim equations are discharged by computation. -/
theorem claim_next_waiting_job_unique_witness :
    ({ c9JobA with status := .SUMMARIZING, locked_at := some 10 } :
        JobRecord).job_id ≠
      ({ c9JobB with status := .SUMMARIZING, locked_at := some 11 } :
        JobRecord).job_id :=
  claim_next_waiting_job_unique.1 c9Db 10 11
    { c9JobA with status := .SUMMARIZING, locked_at := some 10 }
    { jobs := [{ c9JobA with status := .SUMMARIZING, locked_at := some 10 },
        c9JobB], locked := ["q1"] }
    { c9JobB with status := .SUMMARIZING, locked_at := some 11 }
    { jobs := [{ c9JobA with status := .SUMMARIZING, locked_at := some 10 },
        { c9JobB with status := .SUMMARIZING, locked_at := some 11 }],
      locked := ["q1", "q2"] }
    rfl rfl

/-- The frame facts C10 asserts about one updated record: the identity,
ownership and lock fields are untouched, every omitted optional field keeps
its previous value, and `updated_at` is written. -/
def FrameOk (st : Option LoadingStatus) (stg : Option String) (pp : Option ℚ)
    (now : ℤ) (j j' : JobRecord) : Prop :=
  j'.job_id = j.job_id ∧ j'.arxiv_id = j.arxiv_id ∧ j'.version = j.version ∧
  j'.locked_at = j.locked_at ∧ j'.created_at = j.created_at ∧
  (st = none → j'.status = j.status) ∧
  (stg = none → j'.stage = j.stage) ∧
  (pp = none → j'.progress_percent = j.progress_percent) ∧
  j'.updated_at = now

lemma applyProgressUpdate_frame (st : Option LoadingStatus)
    (stg : Option String) (pp : Option ℚ) (now : ℤ) (j : JobRecord) :
    FrameOk st stg pp now j (applyProgressUpdate st stg pp now j) := by
  rcases st with - | st <;> rcases stg with - | s <;> rcases pp with - | p <;>
    simp only [FrameOk, applyProgressUpdate] <;>
    (try split_ifs) <;>
    simp

lemma map_eq_self_of {α : Type _} (f : α → α) :
    ∀ l : List α, (∀ x ∈ l, f x = x) → l.map f = l := by
  intro l
  induction l with
  | nil => intro; rfl
  | cons a t ih =>
    intro h
    simp only [List.map_cons]
    rw [h a (by simp), ih fun x hx => h x (by simp [hx])]

/-- C10. For both stores, `update_job_progress` changes only the fields for
which a value was passed, plus `updated_at`, on the record with the given id;
every other field and every other record keeps its previous value; and when
no record carries the id, the store is left entirely unchanged (the operation
is total, so nothing is raised). -/
theorem update_job_progress_spec :
    (∀ (db : InMemoryDb) (id : String) (st : Option LoadingStatus)
        (stg : Option String) (pp : Option ℚ) (now : ℤ),
      ((∀ k ∈ db.jobs, k.job_id ≠ id) →
        im_update_job_progress db id st stg pp now = db) ∧
      (im_update_job_progress db id st stg pp now).locked = db.locked ∧
      List.Forall₂ (fun j j' =>
        (j.job_id ≠ id → j' = j) ∧
        (j.job_id = id → FrameOk st stg pp now j j'))
        db.jobs (im_update_job_progress db id st stg pp now).jobs) ∧
    (∀ (db : PgDb) (id : String) (st : Option LoadingStatus)
        (stg : Option String) (pp : Option ℚ) (now : ℤ),
      ((∀ k ∈ db.jobs, k.job_id ≠ id) →
        pg_update_job_progress db id st stg pp now = db) ∧
      List.Forall₂ (fun j j' =>
        (j.job_id ≠ id → j' = j) ∧
        (j.job_id = id → FrameOk st stg pp now j j'))
        db.jobs (pg_update_job_progress db id st stg pp now).jobs) := by
  constructor
  · intro db id st stg pp now
    refine ⟨?_, rfl, ?_⟩
    · intro hnone
      unfold im_update_job_progress
      rw [map_eq_self_of]
      intro x hx
      simp [hnone x hx]
    · apply forall₂_map_self
      intro x hx
      constructor
      · intro hne; simp [hne]
      · intro heq; simp only [heq, if_true, if_pos]
        exact applyProgressUpdate_frame st stg pp now x
  · intro db id st stg pp now
    refine ⟨?_, ?_⟩
    · intro hnone
      unfold pg_update_job_progress
      rw [map_eq_self_of]
      intro x hx
      simp [hnone x hx]
    · apply forall₂_map_self
      intro x hx
      constructor
      · intro hne; simp [hne]
      · intro heq; simp only [heq, if_true, if_pos]
        exact applyProgressUpdate_frame st stg pp now x

/-- Witness for C10: updating a job id absent from the concrete store leaves
the store unchanged. -/
theorem update_job_progress_spec_witness :
    im_update_job_progress c9Db "absent" (some LoadingStatus.SUCCESS)
        (some "SUCCESS") (some 1) 42 = c9Db :=
  (update_job_progress_spec.1 c9Db "absent" (some LoadingStatus.SUCCESS)
    (some "SUCCESS") (some 1) 42).1 (by decide)

/-- The chronological `(status, stage, progress_percent)` triples written via
`update_job_progress` by `process_job` on the arXiv import path
(worker.py:260-366), as a function of which pipeline steps succeed: metadata
fetch, concept extraction, the import pipeline, summarization and document
save, and the storage upload.  A failure raises into the surrounding handler,
which writes the `ERROR` stage with progress `0.0`; an upload failure first
writes the `UPLOAD_ERROR` stage with progress `0.9` and then re-raises into
the same handler. -/
def process_job_arxiv_updates
    (metaOk conceptsOk importOk summarizeOk uploadOk : Bool) :
    List (LoadingStatus × String × ℚ) :=
  (LoadingStatus.SUMMARIZING, "FETCH_METADATA", 0.05) ::
    if !metaOk then [(LoadingStatus.ERROR_DOCUMENT_LOAD, "ERROR", 0)]
    else (LoadingStatus.SUMMARIZING, "EXTRACT_CONCEPTS", 0.15) ::
      if !conceptsOk then [(LoadingStatus.ERROR_DOCUMENT_LOAD, "ERROR", 0)]
      else (LoadingStatus.SUMMARIZING, "IMPORT_PIPELINE", 0.25) ::
        if !importOk then [(LoadingStatus.ERROR_DOCUMENT_LOAD, "ERROR", 0)]
        else (LoadingStatus.SUMMARIZING, "IMPORT_PIPELINE", 0.5) ::
          (LoadingStatus.SUMMARIZING, "SUMMARIZING", 0.7) ::
          if !summarizeOk then [(LoadingStatus.ERROR_DOCUMENT_LOAD, "ERROR", 0)]
          else if !uploadOk then
            [(LoadingStatus.ERROR_DOCUMENT_LOAD, "UPLOAD_ERROR", 0.9),
             (LoadingStatus.ERROR_DOCUMENT_LOAD, "ERROR", 0)]
          else [(LoadingStatus.SUCCESS, "SUCCESS", 1)]

/-- The chronological update triples of the local-upload path of
`process_job` (worker.py:126-247): a missing `storage_pdf_path` writes one
error update carrying progress `1.0` and returns; otherwise the stages write
0.05, 0.25, 0.7 and finally 1.0, and a failure anywhere inside the
surrounding handler writes the `ERROR` stage with progress `0.0`.  The step
flags cover the PDF/metadata reading up to the import-stage write, the import
pipeline segment, and the summarize/save/upload segment. -/
def process_job_local_updates (missingPdf pdfOk importOk finishOk : Bool) :
    List (LoadingStatus × String × ℚ) :=
  if missingPdf then
    [(LoadingStatus.ERROR_DOCUMENT_LOAD, "LOCAL_UPLOAD_MISSING_PDF", 1)]
  else
    (LoadingStatus.SUMMARIZING, "FETCH_METADATA", 0.05) ::
      if !pdfOk then [(LoadingStatus.ERROR_DOCUMENT_LOAD, "ERROR", 0)]
      else (LoadingStatus.SUMMARIZING, "IMPORT_PIPELINE", 0.25) ::
        if !importOk then [(LoadingStatus.ERROR_DOCUMENT_LOAD, "ERROR", 0)]
        else (LoadingStatus.SUMMARIZING, "SUMMARIZING", 0.7) ::
          if !finishOk then [(LoadingStatus.ERROR_DOCUMENT_LOAD, "ERROR", 0)]
          else [(LoadingStatus.SUCCESS, "SUCCESS", 1)]

/-- One run of `process_job` (worker.py:117-366): the local-upload path with
its step outcomes, the in-memory development stub (which performs no
`update_job_progress` write at all, only `update_job_status`), or the
arXiv import path with its step outcomes. -/
inductive JobRun where
  | localRun (missingPdf pdfOk importOk finishOk : Bool)
  | inMemoryStub
  | arxivRun (metaOk conceptsOk importOk summarizeOk uploadOk : Bool)
deriving DecidableEq, Repr

/-- The chronological `update_job_progress` writes of one `process_job`
run, over all three paths of the function. -/
def process_job_updates : JobRun → List (LoadingStatus × String × ℚ)
  | .localRun a b c d => process_job_local_updates a b c d
  | .inMemoryStub => []
  | .arxivRun a b c d e => process_job_arxiv_updates a b c d e

/-- The successive `progress_percent` values written by one `process_job`
run. -/
def progressTrace (r : JobRun) : List ℚ :=
  (process_job_updates r).map fun u => u.2.2

/-- Counterexample for C6: on a run whose storage upload fails, the job's
update sequence writes progress 0.9 (upload-error stage) and then 0.0 (error
stage) — a strict decrease below the job's current value — so the updates of
a single job are not monotonically non-decreasing. -/
theorem process_job_progress_counterexample :
    progressTrace (.arxivRun true true true true false) =
      [0.05, 0.15, 0.25, 0.5, 0.7, 0.9, 0] ∧
    ¬ List.Chain' (· ≤ ·)
      (0 :: progressTrace (.arxivRun true true true true false)) := by
  constructor
  · rfl
  · intro hch
    rw [show progressTrace (.arxivRun true true true true false) =
      [0.05, 0.15, 0.25, 0.5, 0.7, 0.9, 0] from rfl] at hch
    norm_num [List.chain'_cons] at hch

/-- C6 (amended). On every successful run of `process_job` the progress
writes are monotonically non-decreasing from the initial zero (0.05 → 0.15 →
0.25 → 0.5 → 0.7 → 1.0 on the arXiv path, 0.05 → 0.25 → 0.7 → 1.0 on the
local path, and no progress write at all on the in-memory stub); of the
failing runs only the local missing-PDF case keeps monotonicity — its single
update writes progress 1.0 with an error status — while every other failing
run ends with the generic error update writing progress 0.0, below the job's
current value. -/
theorem process_job_progress_spec :
    (progressTrace (.arxivRun true true true true true) =
        [0.05, 0.15, 0.25, 0.5, 0.7, 1] ∧
      List.Chain' (· ≤ ·)
        (0 :: progressTrace (.arxivRun true true true true true)) ∧
      progressTrace (.localRun false true true true) = [0.05, 0.25, 0.7, 1] ∧
      List.Chain' (· ≤ ·)
        (0 :: progressTrace (.localRun false true true true)) ∧
      progressTrace .inMemoryStub = []) ∧
    (∀ b c d : Bool,
      process_job_updates (.localRun true b c d) =
        [(LoadingStatus.ERROR_DOCUMENT_LOAD, "LOCAL_UPLOAD_MISSING_PDF", 1)]) ∧
    (∀ a b c d e : Bool, ¬(a ∧ b ∧ c ∧ d ∧ e) →
      (process_job_updates (.arxivRun a b c d e)).getLast? =
        some (LoadingStatus.ERROR_DOCUMENT_LOAD, "ERROR", 0)) ∧
    (∀ b c d : Bool, ¬(b ∧ c ∧ d) →
      (process_job_updates (.localRun false b c d)).getLast? =
        some (LoadingStatus.ERROR_DOCUMENT_LOAD, "ERROR", 0)) := by
  refine ⟨⟨rfl, ?_, rfl, ?_, rfl⟩, ?_, ?_, ?_⟩
  · rw [show progressTrace (.arxivRun true true true true true) =
      [0.05, 0.15, 0.25, 0.5, 0.7, 1] from rfl]
    norm_num [List.chain'_cons, List.chain'_singleton]
  · rw [show progressTrace (.localRun false true true true) =
      [0.05, 0.25, 0.7, 1] from rfl]
    norm_num [List.chain'_cons, List.chain'_singleton]
  · intro b c d
    rfl
  · decide
  · decide

/-- Witness for C6: the failed-run clause applied to a run whose metadata
fetch fails. -/
theorem process_job_progress_spec_witness :
    (process_job_updates (.arxivRun false true true true true)).getLast? =
      some (LoadingStatus.ERROR_DOCUMENT_LOAD, "ERROR", 0) :=
  process_job_progress_spec.2.2.1 false true true true true (by simp)

/-- Embedding of `LumiSpan` (shared/lumi_doc.py) restricted to the fields the
fallback property concerns; the fallback span is built with empty
`inner_tags`, which are omitted here. -/
structure LumiSpan where
  id : String
  text : String
deriving DecidableEq, Repr

/-- Embedding of `TextContent` (shared/lumi_doc.py). -/
structure TextContent where
  tag_name : String
  spans : List LumiSpan
deriving DecidableEq, Repr

/-- Embedding of `LumiContent` (shared/lumi_doc.py) restricted to the text
variant; the figure/image/list variants play no role in the fallback
property. -/
structure LumiContent where
  id : String
  text_content : Option TextContent
deriving DecidableEq, Repr

/-- Embedding of `LumiSection` (shared/lumi_doc.py): an id and its ordered
content blocks (heading and sub-sections omitted as irrelevant to block
counting; sub-section contents never migrate into `contents`). -/
structure LumiSection where
  id : String
  contents : List LumiContent
deriving DecidableEq, Repr

/-- Embedding of `LumiReference` (shared/lumi_doc.py). -/
structure LumiReference where
  id : String
  span : LumiSpan
deriving DecidableEq, Repr

/-- Embedding of `LumiFootnote` (shared/lumi_doc.py). -/
structure LumiFootnote where
  id : String
  span : LumiSpan
deriving DecidableEq, Repr

/-- The parts of `LumiDoc` built by `convert_model_output_to_lumi_doc`
(markdown is set to the empty string by the source; concepts, summaries and
metadata are irrelevant to block counting and omitted). -/
structure LumiDocM where
  markdown : String
  abstract : Option (List LumiContent)
  sections : List LumiSection
  references : List LumiReference
  footnotes : List LumiFootnote
deriving DecidableEq, Repr

/-- Modelled from the spec: the conversion collaborators used by
`convert_model_output_to_lumi_doc` and `generate_lumi_answer` live in
`import_pipeline/markdown_utils.py` and `convert_html_to_lumi.py`, which are
not among the sources under verification.  `preprocessFigures` is
`preprocess_and_replace_figures`; `parseAbstract`/`parseContent`/
`parseReferences`/`parseFootnotes` are the fields of
`markdown_utils.parse_lumi_import`; `extractEquations` is the string
component of `markdown_utils.extract_equations_to_placeholders`;
`convertToSections` is `markdown_utils.markdown_to_html` composed with
`convert_html_to_lumi.convert_to_lumi_sections` (the placeholder maps, which
cannot change the number of produced blocks per the spec's placeholder
round-trip property, are kept internal); `convertRawToSpans` is
`convert_html_to_lumi.convert_raw_output_to_spans`. -/
structure ConvertEnv where
  preprocessFigures : String → String
  parseAbstract : String → Option String
  parseContent : String → Option String
  parseReferences : String → List (String × String)
  parseFootnotes : String → List (String × String)
  extractEquations : String → String
  convertToSections : String → List LumiSection
  convertRawToSpans : String → List LumiSpan

/-- Embedding of `convert_model_output_to_lumi_doc` (import_pipeline.py):
preprocess figures, parse the tagged regions, convert abstract and content
through equation extraction and section conversion, convert references and
footnotes to single spans, and assemble the document.  The source synthesizes
no fallback block anywhere.  Python truthiness on the parsed regions makes an
empty abstract or content string equivalent to an absent one. -/
def convert_model_output_to_lumi_doc (env : ConvertEnv)
    (model_output_string : String) : LumiDocM :=
  let processed := env.preprocessFigures model_output_string
  let abstract :=
    match env.parseAbstract processed with
    | none => none
    | some a =>
      if a = "" then none
      else
        match env.convertToSections (env.extractEquations a) with
        | [] => none
        | s :: _ => some s.contents
  let sections :=
    match env.parseContent processed with
    | none => []
    | some c =>
      if c = "" then [] else env.convertToSections (env.extractEquations c)
  let references :=
    (env.parseReferences processed).filterMap fun item =>
      match env.convertRawToSpans item.2 with
      | [] => none
      | sp :: _ => some (LumiReference.mk item.1 sp)
  let footnotes :=
    (env.parseFootnotes processed).filterMap fun item =>
      match env.convertRawToSpans item.2 with
      | [] => none
      | sp :: _ => some (LumiFootnote.mk item.1 sp)
  { markdown := "", abstract := abstract, sections := sections,
    references := references, footnotes := footnotes }

/-- The content blocks of a converted document: the abstract's blocks
followed by every section's blocks. -/
def docContentBlocks (d : LumiDocM) : List LumiContent :=
  (match d.abstract with
   | none => []
   | some cs => cs) ++ (d.sections.map fun s => s.contents).flatten

/-- The response assembly of `generate_lumi_answer` (answers.py) after the
LLM call: extract equations to placeholders, convert the extracted string to
sections, flatten the section contents, and when nothing was produced fall
back to a single paragraph block holding one raw span whose text is the
extracted (not the original) response string; `uid` stands for the
`get_unique_id()` values. -/
def generate_lumi_answer_content (env : ConvertEnv) (uid : String)
    (markdown_response : String) : List LumiContent :=
  let extracted := env.extractEquations markdown_response
  let response_sections := env.convertToSections extracted
  let response_content := (response_sections.map fun s => s.contents).flatten
  if response_content.isEmpty then
    [⟨uid, some ⟨"p", [⟨uid, extracted⟩]⟩⟩]
  else response_content

/-- Modelled from the spec: a concrete instance of the conversion
collaborators on which structural conversion yields zero content blocks (the
premise of the fallback property) and on which equation extraction replaces
the inline equation of the input `E $x$` with a placeholder token. -/
def demoConvertEnv : ConvertEnv where
  preprocessFigures := fun s => s
  parseAbstract := fun _ => none
  parseContent := fun s => some s
  parseReferences := fun _ => []
  parseFootnotes := fun _ => []
  extractEquations := fun s => if s = "E $x$" then "E [EQ-0]" else s
  convertToSections := fun _ => []
  convertRawToSpans := fun _ => []

/-- Counterexample for C3: when structural conversion yields zero content
blocks, the import-pipeline document conversion synthesizes no fallback — the
resulting document has zero content blocks, not exactly one — and the answer
fallback block's text is the equation-extracted string, which differs from
the raw input. -/
theorem conversion_fallback_counterexample :
    docContentBlocks
        (convert_model_output_to_lumi_doc demoConvertEnv "E $x$") = [] ∧
    generate_lumi_answer_content demoConvertEnv "u" "E $x$" =
      [⟨"u", some ⟨"p", [⟨"u", "E [EQ-0]"⟩]⟩⟩] ∧
    ("E [EQ-0]" : String) ≠ "E $x$" := by
  refine ⟨rfl, rfl, by decide⟩

/-- C3 (amended). In `generate_lumi_answer`, whenever conversion of the model
response yields zero content blocks, the response content is exactly one
fallback text block whose text is the equation-placeholder-extracted response
string (equal to the raw response only when equation extraction leaves it
unchanged); `convert_model_output_to_lumi_doc` synthesizes no fallback, so a
structural conversion yielding zero blocks yields a document with zero
content blocks. -/
theorem conversion_fallback_spec :
    (∀ (env : ConvertEnv) (uid raw : String),
      ((env.convertToSections (env.extractEquations raw)).map
        (fun s => s.contents)).flatten = [] →
      generate_lumi_answer_content env uid raw =
        [⟨uid, some ⟨"p", [⟨uid, env.extractEquations raw⟩]⟩⟩]) ∧
    (∀ (env : ConvertEnv) (raw : String),
      (∀ s, ((env.convertToSections s).map fun t => t.contents).flatten = []) →
      docContentBlocks (convert_model_output_to_lumi_doc env raw) = []) := by
  constructor
  · intro env uid raw h
    unfold generate_lumi_answer_content
    simp [h]
  · intro env raw h
    have hsec : ∀ s : String, ∀ t ∈ env.convertToSections s, t.contents = [] := by
      intro s t ht
      have hj := h s
      rw [List.flatten_eq_nil_iff] at hj
      exact hj _ (List.mem_map_of_mem _ ht)
    simp only [convert_model_output_to_lumi_doc, docContentBlocks]
    rw [List.append_eq_nil]
    constructor
    · rcases hpa : env.parseAbstract (env.preprocessFigures raw) with - | a
      · simp [hpa]
      · simp only [hpa]
        by_cases ha : a = ""
        · simp [ha]
        · rw [if_neg ha]
          rcases hcs : env.convertToSections (env.extractEquations a)
            with - | ⟨s, rest⟩
          · simp [hcs]
          · simp only [hcs]
            exact hsec (env.extractEquations a) s (by rw [hcs]; simp)
    · rcases hpc : env.parseContent (env.preprocessFigures raw) with - | c
      · simp [hpc]
      · simp only [hpc]
        by_cases hc : c = ""
        · simp [hc]
        · rw [if_neg hc]
          exact h (env.extractEquations c)

/-- Witness for C3: the amended fallback clause applied to the concrete
collaborators on a plain response without equations, where the extracted
string equals the raw one. -/
theorem conversion_fallback_spec_witness :
    generate_lumi_answer_content demoConvertEnv "u" "plain" =
      [⟨"u", some ⟨"p", [⟨"u", "plain"⟩]⟩⟩] :=
  conversion_fallback_spec.1 demoConvertEnv "u" "plain" rfl

end Lumi
